import Mathlib

/-!
Verification development for the Flask report generator (`app.py`).

The Python source is shallowly embedded: each Python helper becomes a Lean
definition of the same name (where Lean allows it), file contents are plain
strings (the `utf-8`/`errors="ignore"` decode is outside the model: the model
receives the decoded text), and the external `eventos.json` load is passed in
as an `Option` parameter (`none` models the `except` branch of the loader).
-/

namespace App

/-- Characters treated as whitespace by Python's `str.strip()` (restricted to
the ASCII whitespace characters; the source never manipulates the exotic
Unicode space characters). -/
def pySpace (c : Char) : Bool :=
  c = ' ' ∨ c = '\t' ∨ c = '\n' ∨ c = '\r' ∨ c = '\x0b' ∨ c = '\x0c'

/-- Python `str.strip()`: drop leading and trailing whitespace. -/
def pyStrip (s : String) : String :=
  String.mk (((s.data.dropWhile pySpace).reverse.dropWhile pySpace).reverse)

/-- Splitting on the pipe character, accumulating the current field. -/
def splitPipeCore : List Char → List Char → List String
  | [], acc => [String.mk acc.reverse]
  | '|' :: t, acc => String.mk acc.reverse :: splitPipeCore t []
  | c :: t, acc => splitPipeCore t (c :: acc)

/-- Python `s.split("|")`: the fields between pipes, in order; like Python
(and unlike some split conventions) `"".split("|") == [""]` and a trailing
pipe yields a trailing empty field. -/
def pySplitPipe (s : String) : List String :=
  splitPipeCore s.data []

/-- Universal-newline translation performed by opening a file in text mode:
`"\r\n"` and a lone `"\r"` both read as `"\n"`. -/
def univNewlines : List Char → List Char
  | [] => []
  | '\r' :: '\n' :: t => '\n' :: univNewlines t
  | '\r' :: t => '\n' :: univNewlines t
  | c :: t => c :: univNewlines t

/-- Core of `readlines`: split after each `'\n'`, keeping the newline in the
line; a final segment with no newline is a line only if non-empty. -/
def readlinesCore : List Char → List Char → List String
  | [], [] => []
  | [], acc => [String.mk acc.reverse]
  | '\n' :: t, acc => String.mk (acc.reverse ++ ['\n']) :: readlinesCore t []
  | c :: t, acc => readlinesCore t (c :: acc)

/-- Python `f.readlines()` on a text-mode file whose decoded content is
`content`. -/
def pyReadlines (content : String) : List String :=
  readlinesCore (univNewlines content.data) []

/-- Numeric value of an ASCII digit, `none` on any other character. -/
def digVal (c : Char) : Option Nat :=
  if '0' ≤ c ∧ c ≤ '9' then some (c.toNat - 48) else none

/-- Digits of an integer literal after its first digit: Python `int()` allows
a single `'_'` between two digits, never leading, trailing or doubled. -/
def digitsCore : List Char → Nat → Option Nat
  | [], acc => some acc
  | '_' :: c :: t, acc =>
      match digVal c with
      | some d => digitsCore t (acc * 10 + d)
      | none => none
  | ['_'], _ => none
  | c :: t, acc =>
      match digVal c with
      | some d => digitsCore t (acc * 10 + d)
      | none => none

/-- Parse a non-empty digit group (underscore-separated) as a `Nat`. -/
def parseDigits : List Char → Option Nat
  | [] => none
  | c :: t =>
      match digVal c with
      | some d => digitsCore t d
      | none => none

/-- Python `int(s)`: strip whitespace, optional sign, non-empty digit group;
`none` models the `ValueError` raised on any other shape. -/
def pyInt (s : String) : Option Int :=
  match (pyStrip s).data with
  | '-' :: t => (parseDigits t).map (fun n => -(n : Int))
  | '+' :: t => (parseDigits t).map (fun n => (n : Int))
  | t => (parseDigits t).map (fun n => (n : Int))

/-- A civil calendar/clock value: what `datetime.fromtimestamp` returns,
to second precision (the timestamps here are whole seconds). -/
structure DT where
  year : Int
  month : Nat
  day : Nat
  hour : Nat
  minute : Nat
  second : Nat
deriving DecidableEq, Repr

/-- Conversion from Unix epoch seconds to a civil date and clock time at
offset zero, by the standard days-from-civil inversion. -/
def civilFromEpoch (ts : Int) : DT :=
  let days : Int := Int.fdiv ts 86400
  let sod : Nat := (Int.emod ts 86400).toNat
  let z : Int := days + 719468
  let era : Int := Int.fdiv z 146097
  let doe : Nat := (Int.emod z 146097).toNat
  let yoe : Nat := (doe - doe / 1460 + doe / 36524 - doe / 146096) / 365
  let doy : Nat := doe - (365 * yoe + yoe / 4 - yoe / 100)
  let mp : Nat := (5 * doy + 2) / 153
  let d : Nat := doy - (153 * mp + 2) / 5 + 1
  let m : Nat := if mp < 10 then mp + 3 else mp - 9
  let y : Int := era * 400 + (yoe : Int) + (if m ≤ 2 then 1 else 0)
  { year := y, month := m, day := d,
    hour := sod / 3600, minute := sod / 60 % 60, second := sod % 60 }

/-- Python `datetime.fromtimestamp(ts)`, modelled at UTC offset zero (the
source uses the host's local zone; the spec's scenario elides the clock part
for exactly that reason). Out-of-range timestamps raise in Python
(`datetime` holds years 1 to 9999 only); that failure is `none` here. -/
def fromtimestamp (ts : Int) : Option DT :=
  let d := civilFromEpoch ts
  if 1 ≤ d.year ∧ d.year ≤ 9999 then some d else none

/-- Compatibility decomposition step of Unicode normalization, restricted to
a table of genuine compatibility singletons exercised in this development
(the ligature `ﬁ` U+FB01, the superscript `²` U+00B2, the no-break space
U+00A0); every character outside the table is its own decomposition. -/
def compatChar (c : Char) : List Char :=
  if c = 'ﬁ' then ['f', 'i']
  else if c = '²' then ['2']
  else if c = ' ' then [' ']
  else [c]

/-- Canonical composition step of Unicode normalization, restricted to the
one combining pair exercised in this development (`e` followed by the
combining acute accent U+0301 composes to `é`). -/
def canonCompose : List Char → List Char
  | 'e' :: '́' :: t => 'é' :: canonCompose t
  | c :: t => c :: canonCompose t
  | [] => []

/-- Python `unicodedata.normalize("NFKC", s)` on the modelled character
subset: compatibility decomposition followed by canonical composition. -/
def nfkcStr (s : String) : String :=
  String.mk (canonCompose (s.data.flatMap compatChar))

/-- Unicode NFC (canonical composition only, no compatibility mapping) on
the same modelled character subset. This is the normalization the spec
names; it is compared against the source's `limpiar_texto` below. -/
def nfcStr (s : String) : String :=
  String.mk (canonCompose s.data)

/-- `limpiar_texto` from the source: NFKC-normalize a string. (The Python
function passes non-`str` inputs through; every call site here passes a
`str`, so that branch is unreachable in the model.) -/
def limpiar_texto (texto : String) : String :=
  nfkcStr texto

/-- A cell value of the parsed table: either a normalized string or the
`datetime` stored in `fecha_legible`. -/
inductive Val where
  | vstr (s : String)
  | vdt (d : DT)
deriving DecidableEq, Repr

/-- A dataframe cell: `none` is Python `None` / pandas missing data. -/
abbrev Cell : Type := Option Val

/-- The ASCII digit for `n % 10`. -/
def digitChar (n : Nat) : Char :=
  Char.ofNat (48 + n % 10)

/-- Decimal digits of `n`, most significant first, with enough fuel; the
fuel only bounds the number of digits. -/
def natCharsAux : Nat → Nat → List Char
  | 0, _ => []
  | fuel + 1, n =>
      if n < 10 then [digitChar n]
      else natCharsAux fuel (n / 10) ++ [digitChar n]

/-- The decimal digit characters of a number, most significant first: the
digits Python's `f"col{i}"` interpolation prints. -/
def natChars (n : Nat) : List Char :=
  natCharsAux (n + 1) n

/-- Decimal rendering of a number, as Python's `str`/f-string prints it. -/
def natStr (n : Nat) : String :=
  String.mk (natChars n)

/-- The numeric value of a decimal digit character (any non-digit counts as
zero; only digit characters are ever passed in). -/
def charVal10 (c : Char) : Nat :=
  if c = '1' then 1 else if c = '2' then 2 else if c = '3' then 3
  else if c = '4' then 4 else if c = '5' then 5 else if c = '6' then 6
  else if c = '7' then 7 else if c = '8' then 8 else if c = '9' then 9 else 0

/-- Recover a number from its decimal digit characters. -/
def charsVal (cs : List Char) : Nat :=
  cs.foldl (fun a c => a * 10 + charVal10 c) 0

/-- The `fila` dictionary built for one input line (source lines 36-49):
split the stripped line on `"|"`, store each stripped, cleaned field under
`col<i>`, then store `fecha_legible`: the timestamp conversion of field 0,
or `None` when `int()` or `fromtimestamp` raises. -/
def mkFila (linea : String) : List (String × Cell) :=
  let partes := pySplitPipe (pyStrip linea)
  partes.enum.map
      (fun p => ("col" ++ natStr p.1, some (Val.vstr (limpiar_texto (pyStrip p.2)))))
    ++ [("fecha_legible", ((pyInt (partes.headD "")).bind fromtimestamp).map Val.vdt)]

/-- Append a key to a column list unless already present. -/
def insertKey (acc : List String) (k : String) : List String :=
  if k ∈ acc then acc else acc ++ [k]

/-- Column index of `pd.DataFrame(datos)`: the union of the dictionaries'
keys in order of first appearance. -/
def dfColumns (datos : List (List (String × Cell))) : List String :=
  datos.foldl (fun acc fila => fila.foldl (fun a kv => insertKey a kv.1) acc) []

/-- The cell a dictionary row holds for a column: missing keys are missing
data (`NaN`), modelled as `none` like a stored `None`. -/
def cellOf (fila : List (String × Cell)) (c : String) : Cell :=
  match List.lookup c fila with
  | some v => v
  | none => none

/-- A pandas dataframe: a column index and rows materialized as association
lists aligned with it. -/
structure DataFrame where
  cols : List String
  rows : List (List (String × Cell))
deriving DecidableEq, Repr

/-- Column projection `df[cs]`: reindex every row on the column list `cs`. -/
def selectCols (df : DataFrame) (cs : List String) : DataFrame :=
  { cols := cs, rows := df.rows.map (fun ρ => cs.map (fun c => (c, cellOf ρ c))) }

/-- `pd.DataFrame(datos)`: columns are the key union, rows are aligned. -/
def mkDF (datos : List (List (String × Cell))) : DataFrame :=
  { cols := dfColumns datos,
    rows := datos.map (fun ρ => (dfColumns datos).map (fun c => (c, cellOf ρ c))) }

/-- Column reordering (source lines 53-59): when both `col0` and
`fecha_legible` are present, move `fecha_legible` right after `col0`. -/
def reorderCols (df : DataFrame) : DataFrame :=
  if "col0" ∈ df.cols ∧ "fecha_legible" ∈ df.cols then
    let cols := df.cols.erase "fecha_legible"
    selectCols df (cols.insertIdx (cols.indexOf "col0" + 1) "fecha_legible")
  else df

/-- The retained column list (source line 62). -/
def columnasFinales (df : DataFrame) : List String :=
  ["col0", "fecha_legible", "col2", "col4", "col6"].filter (fun c => c ∈ df.cols)

/-- The rename map of source lines 66-71. -/
def renombrar (c : String) : String :=
  if c = "col0" then "timestamp"
  else if c = "col2" then "cola"
  else if c = "col4" then "evento"
  else if c = "col6" then "numero_telefono"
  else c

/-- `df.rename(columns=...)`. -/
def renameCols (df : DataFrame) : DataFrame :=
  { cols := df.cols.map renombrar,
    rows := df.rows.map (fun ρ => ρ.map (fun kv => (renombrar kv.1, kv.2))) }

/-- Dictionary lookup with passthrough of absent keys. -/
def lookupD (t : List (String × String)) (s : String) : String :=
  match List.lookup s t with
  | some v => v
  | none => s

/-- `Series.replace` on one cell: a string equal to a table key becomes the
table's value; any other cell (missing, datetime, untranslated code) is
unchanged. -/
def replaceCell (t : List (String × String)) : Cell → Cell
  | some (Val.vstr s) => some (Val.vstr (lookupD t s))
  | v => v

/-- `df["evento"] = df["evento"].replace(traduccion_eventos)` guarded by
`"evento" in df.columns` (source lines 77-78). -/
def translateEventos (t : List (String × String)) (df : DataFrame) : DataFrame :=
  if "evento" ∈ df.cols then
    { cols := df.cols,
      rows := df.rows.map (fun ρ =>
        ρ.map (fun kv => if kv.1 = "evento" then (kv.1, replaceCell t kv.2) else kv)) }
  else df

/-- `generar_dataframe` (source lines 30-82). `content` is the decoded text
of the file at `filepath`; `eventos` is the result of the `eventos.json`
loader, with `none` modelling the `except` branch (missing or malformed
file), in which case the translation step is skipped. -/
def generar_dataframe (content : String) (eventos : Option (List (String × String))) :
    DataFrame :=
  let datos := (pyReadlines content).map mkFila
  let df := renameCols (selectCols (reorderCols (mkDF datos))
    (columnasFinales (reorderCols (mkDF datos))))
  match eventos with
  | some t => translateEventos t df
  | none => df

/-- Two-digit zero-padded rendering (`%02d`) of a number below 100. -/
def pad2 (n : Nat) : String :=
  String.mk [digitChar (n / 10), digitChar n]

/-- Four-digit zero-padded rendering (`%04d`) of a number below 10000. -/
def pad4 (n : Nat) : String :=
  String.mk [digitChar (n / 1000), digitChar (n / 100), digitChar (n / 10), digitChar n]

/-- `str(datetime)` as it appears in a pandas CSV export:
`YYYY-MM-DD HH:MM:SS`. -/
def dtStr (d : DT) : String :=
  pad4 d.year.toNat ++ "-" ++ pad2 d.month ++ "-" ++ pad2 d.day ++ " " ++
    pad2 d.hour ++ ":" ++ pad2 d.minute ++ ":" ++ pad2 d.second

/-- The text a cell becomes in a CSV export: missing data is empty. -/
def cellStr : Cell → String
  | none => ""
  | some (Val.vstr s) => s
  | some (Val.vdt d) => dtStr d

/-- Minimal quoting (the pandas/`csv` default): a field is quoted exactly
when it holds a delimiter, a quote or a line break. -/
def needsQuote (s : String) : Bool :=
  s.data.any (fun c => c = ',' ∨ c = '"' ∨ c = '\n' ∨ c = '\r')

/-- Double every quote character (the CSV escape inside a quoted field). -/
def escQuotes : List Char → List Char
  | [] => []
  | '"' :: t => '"' :: '"' :: escQuotes t
  | c :: t => c :: escQuotes t

/-- The characters a field contributes to the serialized CSV. -/
def fieldChars (s : String) : List Char :=
  if needsQuote s then '"' :: (escQuotes s.data ++ ['"']) else s.data

/-- One CSV record: fields joined by commas. -/
def lineChars : List String → List Char
  | [] => []
  | [f] => fieldChars f
  | f :: fs => fieldChars f ++ ',' :: lineChars fs

/-- A whole CSV text: each record terminated by a newline. -/
def tableChars : List (List String) → List Char
  | [] => []
  | r :: rs => lineChars r ++ '\n' :: tableChars rs

/-- The delimited table a dataframe serializes to: the header of column
names, then each row's cells as text. -/
def tableOf (df : DataFrame) : List (List String) :=
  df.cols :: df.rows.map (fun ρ => ρ.map (fun kv => cellStr kv.2))

/-- `df.to_csv(index=False)`: header row, no index column. -/
def to_csv (df : DataFrame) : String :=
  String.mk (tableChars (tableOf df))

/-- The in-memory stream `generar_reporte_memoria` fills: the Excel branch
drives `xlsxwriter` and is kept symbolic (an opaque binary workbook of the
dataframe); the CSV branch is the serialized text. -/
inductive Reporte where
  | excel (df : DataFrame)
  | bytes (s : String)
deriving DecidableEq, Repr

/-- `generar_reporte_memoria` (source lines 85-94): `"excel"` writes a
workbook with one sheet `"Reporte"`, `index=False`; every other format
string takes the `else` branch, `df.to_csv(index=False)` encoded as
`utf-8-sig`, i.e. a byte-order mark followed by the UTF-8 text. -/
def generar_reporte_memoria (df : DataFrame) (formato : String) : Reporte :=
  if formato = "excel" then Reporte.excel df
  else Reporte.bytes ("\uFEFF" ++ to_csv df)

/-- Drop a leading byte-order mark, if any. -/
def stripBOM (s : String) : String :=
  match s.data with
  | '\uFEFF' :: t => String.mk t
  | _ => s

/-- The text of an in-memory report stream (the Excel branch is an opaque
binary workbook, not a text; it has no text to give). -/
def bytesOf : Reporte → String
  | Reporte.bytes s => s
  | Reporte.excel _ => ""

/-- `ALLOWED_EXTENSIONS` (source line 17). -/
def ALLOWED_EXTENSIONS : List String :=
  ["txt", "log", "csv"]

/-- `filename.rsplit(".", 1)[1]` when a dot is present: the text after the
last dot. -/
def afterLastDot (s : String) : String :=
  String.mk ((s.data.reverse.takeWhile (fun c => c ≠ '.')).reverse)

/-- Python `str.lower()`, character-wise ASCII lowering (the only characters
whose case matters here are the ASCII letters of the extension set). -/
def pyLower (s : String) : String :=
  String.mk (s.data.map Char.toLower)

/-- `allowed_file` (source lines 19-22): dotless names pass; otherwise the
lowercased text after the last dot must be an allowed extension. -/
def allowed_file (filename : String) : Bool :=
  if ¬ filename.data.contains '.' then true
  else ALLOWED_EXTENSIONS.contains (pyLower (afterLastDot filename))

/-- A response of the `/generar/<formato>` route: either an error page with
a status code, or a streamed download. -/
inductive HttpResp where
  | err (msg : String) (code : Nat)
  | file (dlName mime : String) (payload : Reporte)
deriving DecidableEq, Repr

/-- The error message of the route's guard. -/
def MSG_NO_FILE : String :=
  "❌ Primero debes subir un archivo."

/-- The `/generar/<formato>` handler (source lines 174-191). The session
slot, the filesystem and the `eventos.json` loader are passed in:
`lastFile` is `session.get("last_file")` (Python's `not filepath` is true
on both `None` and the empty string), `fsExists` is `os.path.exists`, and
`readF` gives the decoded content of a stored file. -/
def generar (lastFile : Option String) (fsExists : String → Bool)
    (readF : String → String) (eventos : Option (List (String × String)))
    (formato : String) : HttpResp :=
  match lastFile with
  | none => HttpResp.err MSG_NO_FILE 400
  | some fp =>
    if fp = "" ∨ ¬ fsExists fp then HttpResp.err MSG_NO_FILE 400
    else
      let archivo := generar_reporte_memoria (generar_dataframe (readF fp) eventos) formato
      if formato = "excel" then
        HttpResp.file "reporte.xlsx"
          "application/vnd.openxmlformats-officedocument.spreadsheetml.sheet" archivo
      else
        HttpResp.file "reporte.csv" "text/csv" archivo

/-- Scan of the inside of a quoted CSV field (the opening quote already
consumed): a doubled quote is a literal quote, a single quote closes the
field. Returns the field's characters and the unconsumed remainder. -/
def pqCore : List Char → List Char → List Char × List Char
  | [], acc => (acc.reverse, [])
  | '"' :: '"' :: t, acc => pqCore t ('"' :: acc)
  | '"' :: t, acc => (acc.reverse, t)
  | c :: t, acc => pqCore t (c :: acc)

/-- What terminated a CSV field: a comma, a record end, or end of input. -/
inductive CsvSep where
  | comma
  | newline
  | fin
deriving DecidableEq, Repr

/-- Characters an unquoted field may contain. -/
def notSep (c : Char) : Bool :=
  !(c = ',' || c = '\n')

/-- Consume one CSV field and its terminator. -/
def takeField : List Char → String × CsvSep × List Char
  | [] => ("", CsvSep.fin, [])
  | '"' :: t =>
      match pqCore t [] with
      | (f, ',' :: t2) => (String.mk f, CsvSep.comma, t2)
      | (f, '\n' :: t2) => (String.mk f, CsvSep.newline, t2)
      | (f, _) => (String.mk f, CsvSep.fin, [])
  | cs =>
      match cs.dropWhile notSep with
      | ',' :: t2 => (String.mk (cs.takeWhile notSep), CsvSep.comma, t2)
      | '\n' :: t2 => (String.mk (cs.takeWhile notSep), CsvSep.newline, t2)
      | _ => (String.mk (cs.takeWhile notSep), CsvSep.fin, [])

/-- The quoted-field scan never lengthens the input. -/
def pqCore_rest_le : ∀ t acc : List Char, (pqCore t acc).2.length ≤ t.length := by
  intro t acc
  induction t, acc using pqCore.induct <;> simp_all [pqCore] <;> omega

/-- Consuming a delimited field strictly shrinks the input. -/
def takeField_rest_lt : ∀ cs f sep t2, takeField cs = (f, sep, t2) →
    sep ≠ CsvSep.fin → t2.length < cs.length := by
  intro cs f sep t2 h hne
  rw [takeField.eq_def] at h
  split at h
  · cases h; simp at hne
  · rename_i t
    split at h <;> cases h
    · rename_i f0 t2h heq
      have hle := pqCore_rest_le t []
      rw [heq] at hle
      simp at hle ⊢
      omega
    · rename_i f0 t2h heq
      have hle := pqCore_rest_le t []
      rw [heq] at hle
      simp at hle ⊢
      omega
    · simp at hne
  · rename_i hne1 hne2
    split at h <;> cases h
    · rename_i t2h heq
      have hle : (cs.dropWhile notSep).length ≤ cs.length :=
        (List.dropWhile_sublist notSep).length_le
      rw [heq] at hle
      simp at hle
      omega
    · rename_i t2h heq
      have hle : (cs.dropWhile notSep).length ≤ cs.length :=
        (List.dropWhile_sublist notSep).length_le
      rw [heq] at hle
      simp at hle
      omega
    · simp at hne

/-- Consume the fields of one CSV record, up to and including its record
terminator ; an immediate end of input still yields one (empty) field. -/
def parseLineFrom (cs : List Char) : List String × List Char :=
  match h : takeField cs with
  | (f, CsvSep.comma, t2) =>
      let r := parseLineFrom t2
      (f :: r.1, r.2)
  | (f, CsvSep.newline, t2) => ([f], t2)
  | (f, CsvSep.fin, _) => ([f], [])
termination_by cs.length
decreasing_by
  exact takeField_rest_lt cs f CsvSep.comma t2 h (by simp)

/-- A record parse never lengthens the input. -/
def parseLineFrom_rest_le : ∀ cs : List Char, (parseLineFrom cs).2.length ≤ cs.length := by
  intro cs
  generalize hn : cs.length = n
  induction n using Nat.strong_induction_on generalizing cs with
  | _ n ih =>
    subst hn
    rw [parseLineFrom.eq_def]
    split
    · rename_i f t2 h
      have h1 := takeField_rest_lt cs f CsvSep.comma t2 h (by simp)
      have h2 := ih t2.length h1 t2 rfl
      simp
      omega
    · rename_i f t2 h
      have h1 := takeField_rest_lt cs f CsvSep.newline t2 h (by simp)
      simp
      omega
    · simp

/-- A record parse of a non-empty input strictly shrinks it. -/
def parseLineFrom_rest_lt (cs : List Char) (hne : cs ≠ []) :
    (parseLineFrom cs).2.length < cs.length := by
  rw [parseLineFrom.eq_def]
  split
  · rename_i f t2 h
    have h1 := takeField_rest_lt cs f CsvSep.comma t2 h (by simp)
    have h2 := parseLineFrom_rest_le t2
    simp
    omega
  · rename_i f t2 h
    have h1 := takeField_rest_lt cs f CsvSep.newline t2 h (by simp)
    simp
    omega
  · simp
    cases cs with
    | nil => exact absurd rfl hne
    | cons c t => simp

/-- Parse a whole CSV text into records: an empty line is an empty record
(Python's `csv.reader` convention), any other line is parsed field by
field. -/
def parseCSVFrom (cs : List Char) : List (List String) :=
  match cs with
  | [] => []
  | '\n' :: t => [] :: parseCSVFrom t
  | c :: t =>
      let r := parseLineFrom (c :: t)
      r.1 :: parseCSVFrom r.2
termination_by cs.length
decreasing_by
  · simp
  · exact parseLineFrom_rest_lt (c :: t) (by simp)

/-- Re-parse a serialized CSV text as a delimited table. -/
def parseCSV (s : String) : List (List String) :=
  parseCSVFrom s.data

/-- The column-key union of the records parsed from `content`. -/
def allCols (content : String) : List String :=
  dfColumns ((pyReadlines content).map mkFila)

/-- The retained source columns of a parse, in the fixed selection order. -/
def finalColsSrc (content : String) : List String :=
  ["col0", "fecha_legible", "col2", "col4", "col6"].filter (fun c => c ∈ allCols content)

/-- The final column names of a parse. -/
def finalCols (content : String) : List String :=
  (finalColsSrc content).map renombrar

/-- The translation step as it acts on one cell of source column `c`: only
the `evento` column is translated, and only when the table loaded. -/
def translCell (eventos : Option (List (String × String))) (c : String) (v : Cell) : Cell :=
  match eventos with
  | some t => if renombrar c = "evento" then replaceCell t v else v
  | none => v

/-- The finished output row for one input line: the retained columns of the
line's record, renamed, with the translation applied to `evento`. -/
def finalRow (content : String) (eventos : Option (List (String × String)))
    (linea : String) : List (String × Cell) :=
  (finalColsSrc content).map
    (fun c => (renombrar c, translCell eventos c (cellOf (mkFila linea) c)))

theorem charVal10_digitChar (d : Nat) : charVal10 (digitChar d) = d % 10 := by
  have h : d % 10 < 10 := Nat.mod_lt _ (by omega)
  rw [digitChar]
  set r := d % 10 with hr
  interval_cases r <;> rfl

theorem digitChar_eq_mod (d : Nat) : digitChar d = digitChar (d % 10) := by
  simp [digitChar, Nat.mod_mod_of_dvd]

theorem charsVal_append (cs : List Char) (c : Char) :
    charsVal (cs ++ [c]) = charsVal cs * 10 + charVal10 c := by
  simp [charsVal, List.foldl_append]

theorem charsVal_natCharsAux :
    ∀ (fuel n : Nat), n < fuel → charsVal (natCharsAux fuel n) = n := by
  intro fuel
  induction fuel with
  | zero => omega
  | succ fuel ih =>
    intro n hn
    rw [natCharsAux]
    split
    · rename_i h
      simp [charsVal, charVal10_digitChar, Nat.mod_eq_of_lt h]
    · rename_i h
      have hdiv : n / 10 < fuel := by
        have hlt : n / 10 < n := Nat.div_lt_self (by omega) (by omega)
        omega
      rw [charsVal_append, ih (n / 10) hdiv, charVal10_digitChar]
      omega

theorem charsVal_natChars (n : Nat) : charsVal (natChars n) = n :=
  charsVal_natCharsAux (n + 1) n (by omega)

theorem natStr_injective (m n : Nat) (h : natStr m = natStr n) : m = n := by
  have hd : natChars m = natChars n := congrArg String.data h
  calc m = charsVal (natChars m) := (charsVal_natChars m).symm
  _ = charsVal (natChars n) := by rw [hd]
  _ = n := charsVal_natChars n

theorem colKey_injective (m n : Nat) (h : ("col" ++ natStr m) = ("col" ++ natStr n)) :
    m = n := by
  have hd := congrArg String.data h
  simp only [String.data_append] at hd
  exact natStr_injective m n (String.ext (List.append_cancel_left hd))

theorem colKey_ne_fecha (s : String) : ("col" ++ s) ≠ "fecha_legible" := by
  intro h
  have hd := congrArg String.data h
  simp only [String.data_append] at hd
  simp only [List.cons_append, List.nil_append] at hd
  exact absurd (List.head_eq_of_cons_eq hd) (by decide)

theorem mem_insertKey (acc : List String) (k c : String) :
    c ∈ insertKey acc k ↔ c ∈ acc ∨ c = k := by
  unfold insertKey
  split
  · rename_i hk
    constructor
    · exact fun h => Or.inl h
    · rintro (h | rfl)
      · exact h
      · exact hk
  · simp

theorem mem_keysFold (ρ : List (String × Cell)) :
    ∀ (acc : List String) (c : String),
      c ∈ ρ.foldl (fun a kv => insertKey a kv.1) acc ↔
        c ∈ acc ∨ ∃ kv ∈ ρ, kv.1 = c := by
  induction ρ with
  | nil => simp
  | cons kv t ih =>
    intro acc c
    simp only [List.foldl_cons]
    rw [ih, mem_insertKey]
    constructor
    · rintro ((h | h) | h)
      · exact Or.inl h
      · exact Or.inr ⟨kv, by simp, h.symm⟩
      · obtain ⟨q, hq, hq1⟩ := h
        exact Or.inr ⟨q, by simp [hq], hq1⟩
    · rintro (h | h)
      · exact Or.inl (Or.inl h)
      · obtain ⟨q, hq, hq1⟩ := h
        rcases List.mem_cons.mp hq with rfl | hq
        · exact Or.inl (Or.inr hq1.symm)
        · exact Or.inr ⟨q, hq, hq1⟩

theorem mem_dfColumns_fold (datos : List (List (String × Cell))) :
    ∀ (acc : List String) (c : String),
      c ∈ datos.foldl (fun acc fila => fila.foldl (fun a kv => insertKey a kv.1) acc) acc ↔
        c ∈ acc ∨ ∃ ρ ∈ datos, ∃ kv ∈ ρ, kv.1 = c := by
  induction datos with
  | nil => simp
  | cons ρ t ih =>
    intro acc c
    simp only [List.foldl_cons]
    rw [ih, mem_keysFold]
    constructor
    · rintro ((h | h) | h)
      · exact Or.inl h
      · exact Or.inr ⟨ρ, by simp, h⟩
      · obtain ⟨σ, hσ, h⟩ := h
        exact Or.inr ⟨σ, by simp [hσ], h⟩
    · rintro (h | h)
      · exact Or.inl (Or.inl h)
      · obtain ⟨σ, hσ, h⟩ := h
        rcases List.mem_cons.mp hσ with rfl | hσ
        · exact Or.inl (Or.inr h)
        · exact Or.inr ⟨σ, hσ, h⟩

theorem mem_dfColumns (datos : List (List (String × Cell))) (c : String) :
    c ∈ dfColumns datos ↔ ∃ ρ ∈ datos, ∃ kv ∈ ρ, kv.1 = c := by
  have := mem_dfColumns_fold datos [] c
  simpa [dfColumns] using this

theorem splitPipeCore_ne_nil : ∀ (cs acc : List Char), splitPipeCore cs acc ≠ [] := by
  intro cs acc
  induction cs, acc using splitPipeCore.induct <;> simp_all [splitPipeCore]

theorem pySplitPipe_ne_nil (s : String) : pySplitPipe s ≠ [] :=
  splitPipeCore_ne_nil _ _

theorem lookup_mkFila_fecha (linea : String) :
    List.lookup "fecha_legible" (mkFila linea) =
      some (((pyInt ((pySplitPipe (pyStrip linea)).headD "")).bind fromtimestamp).map Val.vdt) := by
  simp only [mkFila]
  rw [List.lookup_append]
  have hn : List.lookup "fecha_legible"
      ((pySplitPipe (pyStrip linea)).enum.map
        (fun p => ("col" ++ natStr p.1, some (Val.vstr (limpiar_texto (pyStrip p.2)))))) =
      none := by
    rw [List.lookup_eq_none_iff]
    intro p hp
    simp only [List.mem_map] at hp
    obtain ⟨q, _, rfl⟩ := hp
    simp only [bne_iff_ne, ne_eq]
    exact fun hh => colKey_ne_fecha (natStr q.1) hh.symm
  rw [hn]
  simp

theorem mkFila_mem_col0 (linea : String) : ∃ kv ∈ mkFila linea, kv.1 = "col0" := by
  obtain ⟨p0, rest, hps⟩ : ∃ p0 rest, pySplitPipe (pyStrip linea) = p0 :: rest := by
    cases h : pySplitPipe (pyStrip linea) with
    | nil => exact absurd h (pySplitPipe_ne_nil _)
    | cons a t => exact ⟨a, t, rfl⟩
  have hm : (0, p0) ∈ (pySplitPipe (pyStrip linea)).enum := by
    rw [hps]
    exact List.mem_cons_self _ _
  exact ⟨("col" ++ natStr 0, some (Val.vstr (limpiar_texto (pyStrip p0)))),
    List.mem_append_left _ (List.mem_map_of_mem _ hm), rfl⟩

theorem mkFila_mem_fecha (linea : String) : ∃ kv ∈ mkFila linea, kv.1 = "fecha_legible" := by
  refine ⟨("fecha_legible",
    ((pyInt ((pySplitPipe (pyStrip linea)).headD "")).bind fromtimestamp).map Val.vdt), ?_, rfl⟩
  simp [mkFila]

theorem cellOf_proj (ρ : List (String × Cell)) (cs : List String) (c : String) :
    cellOf (cs.map (fun b => (b, cellOf ρ b))) c = if c ∈ cs then cellOf ρ c else none := by
  induction cs with
  | nil => simp [cellOf]
  | cons b bs ih =>
    simp only [List.map_cons]
    by_cases hcb : c = b
    · subst hcb
      simp [cellOf]
    · have hb : (c == b) = false := by simp [hcb]
      simp only [cellOf, List.lookup_cons, hb, List.mem_cons, hcb, false_or] at ih ⊢
      exact ih

theorem proj_proj (ρ : List (String × Cell)) (B A' : List String)
    (hBA : ∀ c ∈ B, c ∈ A') :
    B.map (fun c => (c, cellOf (A'.map (fun b => (b, cellOf ρ b))) c)) =
      B.map (fun c => (c, cellOf ρ c)) := by
  apply List.map_congr_left
  intro c hc
  rw [cellOf_proj, if_pos (hBA c hc)]

theorem mem_reorderB (A : List String) (h0 : "col0" ∈ A) (hf : "fecha_legible" ∈ A)
    (c : String) :
    (c ∈ (A.erase "fecha_legible").insertIdx
      ((A.erase "fecha_legible").indexOf "col0" + 1) "fecha_legible") ↔ c ∈ A := by
  have hc0e : "col0" ∈ A.erase "fecha_legible" := by
    rw [List.mem_erase_of_ne (by decide)]
    exact h0
  have hidx : (A.erase "fecha_legible").indexOf "col0" + 1 ≤
      (A.erase "fecha_legible").length := by
    have := List.indexOf_lt_length.mpr hc0e
    omega
  rw [List.mem_insertIdx hidx]
  by_cases hcf : c = "fecha_legible"
  · subst hcf
    simp [hf]
  · rw [List.mem_erase_of_ne hcf]
    simp [hcf]

theorem reorder_general (datos : List (List (String × Cell))) :
    ∃ B : List String,
      reorderCols (mkDF datos) =
        ⟨B, datos.map (fun ρ => B.map (fun c => (c, cellOf ρ c)))⟩ ∧
      (∀ c, c ∈ B ↔ c ∈ dfColumns datos) := by
  by_cases hg : "col0" ∈ dfColumns datos ∧ "fecha_legible" ∈ dfColumns datos
  · refine ⟨((dfColumns datos).erase "fecha_legible").insertIdx
      (((dfColumns datos).erase "fecha_legible").indexOf "col0" + 1) "fecha_legible",
      ?_, fun c => mem_reorderB _ hg.1 hg.2 c⟩
    rw [reorderCols]
    rw [if_pos (by simpa [mkDF] using hg)]
    simp only [mkDF, selectCols, List.map_map]
    refine congrArg _ ?_
    apply List.map_congr_left
    intro ρ _
    exact proj_proj ρ _ _ (fun c hc => (mem_reorderB _ hg.1 hg.2 c).mp hc)
  · refine ⟨dfColumns datos, ?_, fun c => Iff.rfl⟩
    rw [reorderCols]
    rw [if_neg (by simpa [mkDF] using hg)]
    simp [mkDF]

theorem pipeline_eq (datos : List (List (String × Cell))) :
    renameCols (selectCols (reorderCols (mkDF datos))
      (columnasFinales (reorderCols (mkDF datos)))) =
      ⟨(["col0", "fecha_legible", "col2", "col4", "col6"].filter
          (fun c => c ∈ dfColumns datos)).map renombrar,
        datos.map (fun ρ =>
          (["col0", "fecha_legible", "col2", "col4", "col6"].filter
            (fun c => c ∈ dfColumns datos)).map
              (fun c => (renombrar c, cellOf ρ c)))⟩ := by
  obtain ⟨B, hEq, hIff⟩ := reorder_general datos
  have hC : columnasFinales (reorderCols (mkDF datos)) =
      ["col0", "fecha_legible", "col2", "col4", "col6"].filter
        (fun c => c ∈ dfColumns datos) := by
    rw [hEq]
    unfold columnasFinales
    apply List.filter_congr
    intro c _
    exact decide_eq_decide.mpr (hIff c)
  rw [hC, hEq]
  simp only [selectCols, renameCols, List.map_map]
  congr 1
  apply List.map_congr_left
  intro ρ _
  simp only [Function.comp_apply]
  rw [List.map_map]
  apply List.map_congr_left
  intro c hc
  have hcA : c ∈ dfColumns datos := by
    have := (List.mem_filter.mp hc).2
    exact of_decide_eq_true this
  have hcB : c ∈ B := (hIff c).mpr hcA
  simp only [Function.comp_apply]
  rw [cellOf_proj, if_pos hcB]

theorem renombrar_evento_iff (c : String)
    (hc : c ∈ ["col0", "fecha_legible", "col2", "col4", "col6"]) :
    renombrar c = "evento" ↔ c = "col4" := by
  simp only [List.mem_cons, List.not_mem_nil, or_false] at hc
  rcases hc with rfl | rfl | rfl | rfl | rfl <;> decide

theorem generar_dataframe_eq (content : String)
    (eventos : Option (List (String × String))) :
    generar_dataframe content eventos =
      ⟨finalCols content, (pyReadlines content).map (finalRow content eventos)⟩ := by
  have hp := pipeline_eq ((pyReadlines content).map mkFila)
  cases eventos with
  | none =>
    simp only [generar_dataframe]
    rw [hp]
    congr 1
    rw [List.map_map]
    apply List.map_congr_left
    intro linea _
    simp [finalRow, finalColsSrc, allCols, translCell]
  | some t =>
    simp only [generar_dataframe]
    rw [hp]
    unfold translateEventos
    by_cases h4 : "col4" ∈ dfColumns ((pyReadlines content).map mkFila)
    · rw [if_pos (by
        refine List.mem_map.mpr ⟨"col4", List.mem_filter.mpr ⟨by decide, by simp [h4]⟩, by decide⟩)]
      congr 1
      rw [List.map_map, List.map_map]
      apply List.map_congr_left
      intro linea _
      simp only [Function.comp_apply]
      rw [List.map_map]
      apply List.map_congr_left
      intro c hc
      simp only [Function.comp_apply]
      by_cases hre : renombrar c = "evento" <;>
        simp [finalRow, finalColsSrc, allCols, translCell, hre]
  -- fall through below handles the guard-false case
    · rw [if_neg (by
        intro hmem
        obtain ⟨c, hcF, hre⟩ := List.mem_map.mp hmem
        have hc5 : c ∈ ["col0", "fecha_legible", "col2", "col4", "col6"] :=
          (List.mem_filter.mp hcF).1
        have : c = "col4" := (renombrar_evento_iff c hc5).mp hre
        subst this
        exact h4 (by simpa using (List.mem_filter.mp hcF).2))]
      congr 1
      rw [List.map_map]
      apply List.map_congr_left
      intro linea _
      simp only [Function.comp_apply]
      apply List.map_congr_left
      intro c hcF
      have hc5 : c ∈ ["col0", "fecha_legible", "col2", "col4", "col6"] :=
        (List.mem_filter.mp hcF).1
      have hre : renombrar c ≠ "evento" := by
        intro hre
        have : c = "col4" := (renombrar_evento_iff c hc5).mp hre
        subst this
        exact h4 (by simpa using (List.mem_filter.mp hcF).2)
      simp [finalRow, finalColsSrc, allCols, translCell, hre]

theorem cellOf_mkFila_fecha (linea : String) :
    cellOf (mkFila linea) "fecha_legible" =
      ((pyInt ((pySplitPipe (pyStrip linea)).headD "")).bind fromtimestamp).map Val.vdt := by
  rw [cellOf, lookup_mkFila_fecha]

theorem col0_mem_allCols (content linea : String) (hmem : linea ∈ pyReadlines content) :
    "col0" ∈ allCols content := by
  rw [allCols, mem_dfColumns]
  exact ⟨mkFila linea, List.mem_map_of_mem _ hmem, mkFila_mem_col0 linea⟩

theorem fecha_mem_allCols (content linea : String) (hmem : linea ∈ pyReadlines content) :
    "fecha_legible" ∈ allCols content := by
  rw [allCols, mem_dfColumns]
  exact ⟨mkFila linea, List.mem_map_of_mem _ hmem, mkFila_mem_fecha linea⟩

theorem lookup_finalRow_fecha (content linea : String)
    (evt : Option (List (String × String)))
    (h0 : "col0" ∈ allCols content) (hf : "fecha_legible" ∈ allCols content) :
    List.lookup "fecha_legible" (finalRow content evt linea) =
      some (cellOf (mkFila linea) "fecha_legible") := by
  unfold finalRow finalColsSrc
  cases evt <;>
    simp [List.filter_cons, h0, hf, renombrar, translCell, List.lookup_cons]

theorem lookup_finalRow_evento (content linea : String)
    (evt : Option (List (String × String)))
    (h4 : "col4" ∈ allCols content) :
    List.lookup "evento" (finalRow content evt linea) =
      some (translCell evt "col4" (cellOf (mkFila linea) "col4")) := by
  unfold finalRow finalColsSrc
  by_cases h0 : "col0" ∈ allCols content <;>
    by_cases hf : "fecha_legible" ∈ allCols content <;>
      by_cases h2 : "col2" ∈ allCols content <;>
        simp [List.filter_cons, h0, hf, h2, h4, renombrar, List.lookup_cons]

theorem lookup_enum_col (f : String → Cell) :
    ∀ (partes : List String) (n i : Nat) (h : i < partes.length),
      List.lookup ("col" ++ natStr (n + i))
        ((partes.enumFrom n).map (fun p => ("col" ++ natStr p.1, f p.2))) =
        some (f (partes.get ⟨i, h⟩)) := by
  intro partes
  induction partes with
  | nil =>
    intro n i h
    simp at h
  | cons a t ih =>
    intro n i h
    rw [List.enumFrom_cons]
    cases i with
    | zero =>
      simp [List.lookup_cons]
    | succ i' =>
      have hne : ("col" ++ natStr (n + (i' + 1))) ≠ ("col" ++ natStr n) := by
        intro hh
        have := colKey_injective _ _ hh
        omega
      have hb : (("col" ++ natStr (n + (i' + 1))) == ("col" ++ natStr n)) = false :=
        beq_eq_false_iff_ne.mpr hne
      simp only [List.map_cons, List.lookup_cons, hb, cond_false]
      rw [show n + (i' + 1) = (n + 1) + i' by omega]
      exact ih (n + 1) i' (by simpa using h)

/-- Claim C1: for every input line whose first pipe-delimited field parses
as an integer (whose calendar conversion is representable, years 1-9999),
the row `generar_dataframe` produces for that line carries, in its
`fecha_legible` column, exactly the civil calendar/clock conversion of that
integer read as Unix epoch seconds. -/
theorem claim_C1 (content : String) (evt : Option (List (String × String)))
    (j : Nat) (linea : String) (ts : Int)
    (hj : (pyReadlines content)[j]? = some linea)
    (hts : pyInt ((pySplitPipe (pyStrip linea)).headD "") = some ts)
    (hy1 : 1 ≤ (civilFromEpoch ts).year) (hy2 : (civilFromEpoch ts).year ≤ 9999) :
    ∃ ρ, (generar_dataframe content evt).rows[j]? = some ρ ∧
      List.lookup "fecha_legible" ρ = some (some (Val.vdt (civilFromEpoch ts))) := by
  have hmem : linea ∈ pyReadlines content := by
    have := List.getElem?_eq_some.mp hj
    obtain ⟨hlt, hg⟩ := this
    exact hg ▸ List.getElem_mem hlt
  have h0 := col0_mem_allCols content linea hmem
  have hf := fecha_mem_allCols content linea hmem
  rw [generar_dataframe_eq]
  refine ⟨finalRow content evt linea, ?_, ?_⟩
  · rw [List.getElem?_map, hj]
    rfl
  · rw [lookup_finalRow_fecha content linea evt h0 hf, cellOf_mkFila_fecha, hts]
    simp [fromtimestamp, hy1, hy2]

/-- Witness for C1 at the spec's own scenario line: epoch 1700000000 is
2023-11-14 22:13:20 (offset zero). -/
theorem claim_C1_witness :
    ∃ ρ, (generar_dataframe "1700000000|x|queueA|y|EVT1|z|5551234"
        (some [("EVT1", "Login")])).rows[0]? = some ρ ∧
      List.lookup "fecha_legible" ρ = some (some (Val.vdt (civilFromEpoch 1700000000))) :=
  claim_C1 "1700000000|x|queueA|y|EVT1|z|5551234" (some [("EVT1", "Login")])
    0 "1700000000|x|queueA|y|EVT1|z|5551234" 1700000000
    (by rfl) (by rfl) (by decide) (by decide)

/-- Claim C2: the parse is total (one row per input line, whatever the
content), and on every line whose first field does not parse as an integer
the row's `fecha_legible` column holds `None`. -/
theorem claim_C2 (content : String) (evt : Option (List (String × String))) :
    (generar_dataframe content evt).rows.length = (pyReadlines content).length ∧
    (∀ (j : Nat) (linea : String), (pyReadlines content)[j]? = some linea →
      pyInt ((pySplitPipe (pyStrip linea)).headD "") = none →
      ∃ ρ, (generar_dataframe content evt).rows[j]? = some ρ ∧
        List.lookup "fecha_legible" ρ = some (none : Cell)) := by
  constructor
  · rw [generar_dataframe_eq]
    simp
  · intro j linea hj hn
    have hmem : linea ∈ pyReadlines content := by
      have := List.getElem?_eq_some.mp hj
      obtain ⟨hlt, hg⟩ := this
      exact hg ▸ List.getElem_mem hlt
    have h0 := col0_mem_allCols content linea hmem
    have hf := fecha_mem_allCols content linea hmem
    rw [generar_dataframe_eq]
    refine ⟨finalRow content evt linea, ?_, ?_⟩
    · rw [List.getElem?_map, hj]
      rfl
    · rw [lookup_finalRow_fecha content linea evt h0 hf, cellOf_mkFila_fecha, hn]
      rfl

/-- Witness for C2 at the spec's scenario line with a non-numeric first
field. -/
theorem claim_C2_witness :
    ∃ ρ, (generar_dataframe "abc|x|queueB|y|EVT9|z|5559999" none).rows[0]? = some ρ ∧
      List.lookup "fecha_legible" ρ = some (none : Cell) :=
  (claim_C2 "abc|x|queueB|y|EVT9|z|5559999" none).2 0 "abc|x|queueB|y|EVT9|z|5559999"
    (by rfl) (by rfl)

/-- Counterexample to claim C3 as stated: a file holding one line that is
empty after trimming produces one row, not zero; the claim predicts zero
rows for such a file. -/
theorem claim_C3_counterexample :
    (generar_dataframe "\n" none).rows.length = 1 ∧
    ((pyReadlines "\n").filter (fun l => pyStrip l ≠ "")).length = 0 := by
  constructor
  · rfl
  · rfl

/-- Claim C3 as amended: `generar_dataframe` produces exactly one row per
input line as `readlines` returns them — including lines that are empty
after trimming — and an empty file yields the empty row sequence. -/
theorem claim_C3_amended (content : String) (evt : Option (List (String × String))) :
    (generar_dataframe content evt).rows.length = (pyReadlines content).length ∧
    (content = "" → (generar_dataframe content evt).rows = []) := by
  constructor
  · rw [generar_dataframe_eq]
    simp
  · rintro rfl
    rw [generar_dataframe_eq]
    rfl

/-- Witness for the amended C3: the empty file gives the empty sequence. -/
theorem claim_C3_witness : (generar_dataframe "" none).rows = [] :=
  (claim_C3_amended "" none).2 rfl

/-- Counterexample to claim C4 as stated: the code normalizes with NFKC,
not NFC. On the line `ﬁ` (U+FB01), the stored `col0` value is the
compatibility-decomposed `fi`, while NFC leaves the ligature alone. -/
theorem claim_C4_counterexample :
    List.lookup "col0" (mkFila "ﬁ") = some (some (Val.vstr "fi")) ∧
    nfcStr (pyStrip "ﬁ") = "ﬁ" ∧ ("fi" : String) ≠ "ﬁ" := by
  refine ⟨by rfl, by rfl, by decide⟩

/-- Claim C4 as amended: for every input line and every field position `i`,
the value stored under `col<i>` is that field stripped of surrounding
whitespace and normalized to NFKC (compatibility composition) — not NFC. -/
theorem claim_C4_amended (linea : String) (i : Nat)
    (h : i < (pySplitPipe (pyStrip linea)).length) :
    List.lookup ("col" ++ natStr i) (mkFila linea) =
      some (some (Val.vstr (nfkcStr
        (pyStrip ((pySplitPipe (pyStrip linea)).get ⟨i, h⟩))))) := by
  simp only [mkFila]
  rw [List.lookup_append]
  have henum : (pySplitPipe (pyStrip linea)).enum = (pySplitPipe (pyStrip linea)).enumFrom 0 :=
    rfl
  have hl := lookup_enum_col
    (fun v => some (Val.vstr (limpiar_texto (pyStrip v)))) (pySplitPipe (pyStrip linea)) 0 i h
  rw [Nat.zero_add] at hl
  rw [henum, hl]
  rfl

/-- Witness for the amended C4 on the ligature line, position 0. -/
theorem claim_C4_witness :
    List.lookup ("col" ++ natStr 0) (mkFila "ﬁ") =
      some (some (Val.vstr (nfkcStr
        (pyStrip ((pySplitPipe (pyStrip "ﬁ")).get ⟨0, by decide⟩))))) :=
  claim_C4_amended "ﬁ" 0 (by decide)

/-- Claim C5: the output of `generar_dataframe` holds exactly the columns
among `col0`, `fecha_legible`, `col2`, `col4`, `col6` that occur in the
parsed records, in that order, renamed to `timestamp`, `fecha_legible`,
`cola`, `evento`, `numero_telefono`; its rows are the input lines in input
order, each reduced to those columns. -/
theorem claim_C5 (content : String) (evt : Option (List (String × String))) :
    generar_dataframe content evt =
      ⟨finalCols content, (pyReadlines content).map (finalRow content evt)⟩ ∧
    (∀ c : String, c ∈ allCols content ↔
      ∃ linea ∈ pyReadlines content, ∃ kv ∈ mkFila linea, kv.1 = c) := by
  refine ⟨generar_dataframe_eq content evt, fun c => ?_⟩
  rw [allCols, mem_dfColumns]
  constructor
  · rintro ⟨ρ, hρ, hkv⟩
    obtain ⟨linea, hlin, rfl⟩ := List.mem_map.mp hρ
    exact ⟨linea, hlin, hkv⟩
  · rintro ⟨linea, hlin, hkv⟩
    exact ⟨mkFila linea, List.mem_map_of_mem _ hlin, hkv⟩

/-- Claim C6: with a loaded translation table the parse differs from the
untranslated parse only by applying the table to the `evento` column — a
cell equal to a key becomes the key's label, any other cell is unchanged —
and when the table fails to load (the `none` loader outcome) translation is
skipped for the whole parse and every row keeps its raw `evento` code. -/
theorem claim_C6 (content : String) (t : List (String × String)) :
    ((generar_dataframe content (some t)).cols = (generar_dataframe content none).cols) ∧
    ((generar_dataframe content (some t)).rows =
      (generar_dataframe content none).rows.map (fun ρ =>
        ρ.map (fun kv => if kv.1 = "evento" then (kv.1, replaceCell t kv.2) else kv))) ∧
    (∀ v lbl, List.lookup v t = some lbl →
      replaceCell t (some (Val.vstr v)) = some (Val.vstr lbl)) ∧
    (∀ v, List.lookup v t = none →
      replaceCell t (some (Val.vstr v)) = some (Val.vstr v)) ∧
    (∀ (j : Nat) (linea : String), (pyReadlines content)[j]? = some linea →
      "col4" ∈ allCols content →
      ∃ ρ, (generar_dataframe content none).rows[j]? = some ρ ∧
        List.lookup "evento" ρ = some (cellOf (mkFila linea) "col4")) := by
  refine ⟨?_, ?_, ?_, ?_, ?_⟩
  · rw [generar_dataframe_eq, generar_dataframe_eq]
  · rw [generar_dataframe_eq, generar_dataframe_eq]
    simp only [List.map_map]
    apply List.map_congr_left
    intro linea _
    simp only [Function.comp_apply, finalRow, List.map_map]
    apply List.map_congr_left
    intro c _
    simp only [Function.comp_apply]
    by_cases hre : renombrar c = "evento" <;> simp [translCell, hre]
  · intro v lbl h
    simp [replaceCell, lookupD, h]
  · intro v h
    simp [replaceCell, lookupD, h]
  · intro j linea hj h4
    have hmem : linea ∈ pyReadlines content := by
      have := List.getElem?_eq_some.mp hj
      obtain ⟨hlt, hg⟩ := this
      exact hg ▸ List.getElem_mem hlt
    rw [generar_dataframe_eq]
    refine ⟨finalRow content none linea, ?_, ?_⟩
    · rw [List.getElem?_map, hj]
      rfl
    · rw [lookup_finalRow_evento content linea none h4]
      rfl

/-- Witness for C6 at the spec's scenario: the table maps `EVT1` to
`Login`, and the replacement step maps that cell accordingly. -/
theorem claim_C6_witness :
    replaceCell [("EVT1", "Login")] (some (Val.vstr "EVT1")) =
      some (Val.vstr "Login") :=
  (claim_C6 "1700000000|x|queueA|y|EVT1|z|5551234" [("EVT1", "Login")]).2.2.1
    "EVT1" "Login" rfl

/-- Claim C9: a request to `/generar/<formato>` with no uploaded file in
the session is answered by the HTTP 400 error page with the explicit
message, never by a file download, whatever the format, filesystem or file
contents. -/
theorem claim_C9 (fsExists : String → Bool) (readF : String → String)
    (evt : Option (List (String × String))) (formato : String) :
    generar none fsExists readF evt formato = HttpResp.err MSG_NO_FILE 400 ∧
    ∀ (dn mime : String) (payload : Reporte),
      generar none fsExists readF evt formato ≠ HttpResp.file dn mime payload := by
  refine ⟨rfl, ?_⟩
  intro dn mime payload h
  simp [generar] at h

/-- Claim C10: `allowed_file` accepts a filename exactly when it has no dot
at all, or the lowercased text after its last dot is one of the allowed
extensions; a name ending in a dot is rejected, a dotless name is accepted,
and matching is case-insensitive. -/
theorem claim_C10 :
    (∀ filename : String, allowed_file filename =
      (!(filename.data.contains '.') ||
        ALLOWED_EXTENSIONS.contains (pyLower (afterLastDot filename)))) ∧
    allowed_file "name." = false ∧
    allowed_file "name" = true ∧
    allowed_file "A.TXT" = true ∧
    allowed_file "evil.exe" = false := by
  refine ⟨?_, by decide, by decide, by decide, by decide⟩
  intro filename
  by_cases h : filename.data.contains '.' <;> simp [allowed_file, h]

theorem takeWhile_append_all (p : Char → Bool) :
    ∀ (xs ys : List Char), (∀ x ∈ xs, p x = true) →
      (xs ++ ys).takeWhile p = xs ++ ys.takeWhile p := by
  intro xs ys
  induction xs with
  | nil => intro _; simp
  | cons a t ih =>
    intro h
    have ha : p a = true := h a (by simp)
    simp only [List.cons_append, List.takeWhile_cons, ha, if_true]
    rw [ih (fun x hx => h x (by simp [hx]))]

theorem dropWhile_append_all (p : Char → Bool) :
    ∀ (xs ys : List Char), (∀ x ∈ xs, p x = true) →
      (xs ++ ys).dropWhile p = ys.dropWhile p := by
  intro xs ys
  induction xs with
  | nil => intro _; simp
  | cons a t ih =>
    intro h
    have ha : p a = true := h a (by simp)
    simp only [List.cons_append, List.dropWhile_cons, ha, if_true]
    exact ih (fun x hx => h x (by simp [hx]))

theorem no_special_of_not_needsQuote (f : String) (h : needsQuote f = false) :
    ∀ c ∈ f.data, notSep c = true ∧ c ≠ '"' := by
  intro c hc
  unfold needsQuote at h
  rw [List.any_eq_false] at h
  have := h c hc
  simp only [decide_eq_true_eq] at this
  push_neg at this
  obtain ⟨h1, h2, h3, h4⟩ := this
  exact ⟨by simp [notSep, h1, h3], h2⟩

theorem escQuotes_cons_ne (c : Char) (t : List Char) (hq : c ≠ '"') :
    escQuotes (c :: t) = c :: escQuotes t := by
  rw [escQuotes.eq_def]
  split
  · rename_i heq
    simp at heq
  · rename_i t2 heq
    obtain ⟨h1, _⟩ := List.cons.injEq _ _ _ _ ▸ heq
    exact absurd h1 hq
  · rename_i c' t2 heq
    obtain ⟨h1, h2⟩ := List.cons.injEq _ _ _ _ ▸ heq
    subst h1
    subst h2
    rfl

theorem pqCore_escQuotes (sep : Char) (hsep : sep = ',' ∨ sep = '\n') :
    ∀ (s acc rest : List Char),
      pqCore (escQuotes s ++ '"' :: sep :: rest) acc = (acc.reverse ++ s, sep :: rest) := by
  intro s
  induction s with
  | nil =>
    intro acc rest
    rcases hsep with rfl | rfl <;> simp [escQuotes, pqCore]
  | cons c t ih =>
    intro acc rest
    by_cases hq : c = '"'
    · subst hq
      show pqCore (('"' :: '"' :: escQuotes t) ++ '"' :: sep :: rest) acc = _
      simp only [List.cons_append]
      rw [pqCore]
      rw [ih ('"' :: acc) rest]
      simp
    · rw [escQuotes_cons_ne c t hq]
      simp only [List.cons_append]
      rw [pqCore.eq_def]
      split
      · rename_i heq
        simp at heq
      · rename_i t2 _ heq
        obtain ⟨rfl, _⟩ := List.cons.injEq _ _ _ _ ▸ heq
        exact absurd rfl hq
      · rename_i t2 _ heq
        obtain ⟨rfl, _⟩ := List.cons.injEq _ _ _ _ ▸ heq
        exact absurd rfl hq
      · rename_i c' t2 _ heq
        obtain ⟨rfl, rfl⟩ := List.cons.injEq _ _ _ _ ▸ heq
        rw [ih]
        simp

theorem takeField_render (f : String) (sep : Char) (hsep : sep = ',' ∨ sep = '\n')
    (rest : List Char) :
    takeField (fieldChars f ++ sep :: rest) =
      (f, if sep = ',' then CsvSep.comma else CsvSep.newline, rest) := by
  unfold fieldChars
  by_cases hq : needsQuote f
  · rw [if_pos hq]
    have hassoc : ('"' :: (escQuotes f.data ++ ['"'])) ++ sep :: rest =
        '"' :: (escQuotes f.data ++ '"' :: sep :: rest) := by simp
    rw [hassoc]
    show (match pqCore (escQuotes f.data ++ '"' :: sep :: rest) [] with
      | (f, ',' :: t2) => (String.mk f, CsvSep.comma, t2)
      | (f, '\n' :: t2) => (String.mk f, CsvSep.newline, t2)
      | (f, _) => (String.mk f, CsvSep.fin, [])) = _
    rw [pqCore_escQuotes sep hsep f.data [] rest]
    rcases hsep with rfl | rfl <;> simp
  · rw [if_neg hq]
    have hns := no_special_of_not_needsQuote f (by simpa using hq)
    have hall : ∀ x ∈ f.data, notSep x = true := fun x hx => (hns x hx).1
    have hsepF : notSep sep = false := by rcases hsep with rfl | rfl <;> rfl
    rw [takeField.eq_def]
    split
    · rename_i heq
      rcases hsep with rfl | rfl <;> simp at heq
    · rename_i t heq
      exfalso
      cases hfd : f.data with
      | nil =>
        rw [hfd] at heq
        simp only [List.nil_append] at heq
        obtain ⟨h1, -⟩ := List.cons.injEq _ _ _ _ ▸ heq
        rcases hsep with rfl | rfl <;> simp at h1
      | cons c ft =>
        rw [hfd] at heq
        simp only [List.cons_append] at heq
        obtain ⟨h1, -⟩ := List.cons.injEq _ _ _ _ ▸ heq
        have hcmem : c ∈ f.data := by
          rw [hfd]
          simp
        exact (hns c hcmem).2 h1
    · rw [dropWhile_append_all _ _ _ hall, takeWhile_append_all _ _ _ hall]
      simp only [List.dropWhile_cons, List.takeWhile_cons, hsepF]
      rcases hsep with rfl | rfl <;> simp

theorem parseLineFrom_comma (cs : List Char) (f : String) (t2 : List Char)
    (h : takeField cs = (f, CsvSep.comma, t2)) :
    parseLineFrom cs = (f :: (parseLineFrom t2).1, (parseLineFrom t2).2) := by
  rw [parseLineFrom.eq_def]
  split
  · rename_i f' t2' heq
    rw [heq] at h
    obtain ⟨rfl, -, rfl⟩ : f' = f ∧ CsvSep.comma = CsvSep.comma ∧ t2' = t2 := by
      simpa using h
    rfl
  · rename_i f' t2' heq
    rw [heq] at h
    simp at h
  · rename_i f' t2' heq
    rw [heq] at h
    simp at h

theorem parseLineFrom_newline (cs : List Char) (f : String) (t2 : List Char)
    (h : takeField cs = (f, CsvSep.newline, t2)) :
    parseLineFrom cs = ([f], t2) := by
  rw [parseLineFrom.eq_def]
  split
  · rename_i f' t2' heq
    rw [heq] at h
    simp at h
  · rename_i f' t2' heq
    rw [heq] at h
    obtain ⟨rfl, -, rfl⟩ : f' = f ∧ CsvSep.newline = CsvSep.newline ∧ t2' = t2 := by
      simpa using h
    rfl
  · rename_i f' t2' heq
    rw [heq] at h
    simp at h

theorem parseLineFrom_render :
    ∀ (fs : List String) (rest : List Char), fs ≠ [] →
      parseLineFrom (lineChars fs ++ '\n' :: rest) = (fs, rest) := by
  intro fs
  induction fs with
  | nil =>
    intro rest h
    exact absurd rfl h
  | cons f fs' ih =>
    intro rest _
    cases fs' with
    | nil =>
      have htf := takeField_render f '\n' (Or.inr rfl) rest
      simp only [if_neg (by decide : ¬('\n' = ','))] at htf
      exact parseLineFrom_newline _ _ _ htf
    | cons g gs =>
      have htf := takeField_render f ',' (Or.inl rfl) (lineChars (g :: gs) ++ '\n' :: rest)
      simp only [if_pos rfl] at htf
      have hassoc : lineChars (f :: g :: gs) ++ '\n' :: rest =
          fieldChars f ++ ',' :: (lineChars (g :: gs) ++ '\n' :: rest) := by
        show (fieldChars f ++ ',' :: lineChars (g :: gs)) ++ '\n' :: rest = _
        simp
      rw [hassoc, parseLineFrom_comma _ _ _ htf, ih rest (by simp)]

theorem fieldChars_nil (f : String) (h : fieldChars f = []) : f = "" := by
  unfold fieldChars at h
  by_cases hq : needsQuote f
  · rw [if_pos hq] at h
    simp at h
  · rw [if_neg hq] at h
    exact String.ext (by simp [h])

theorem fieldChars_head (f : String) (c : Char) (t : List Char)
    (h : fieldChars f = c :: t) : c ≠ '\n' := by
  unfold fieldChars at h
  by_cases hq : needsQuote f
  · rw [if_pos hq] at h
    obtain ⟨h1, -⟩ := List.cons.injEq _ _ _ _ ▸ h
    rw [← h1]
    decide
  · rw [if_neg hq] at h
    have hns := no_special_of_not_needsQuote f (by simpa using hq)
    have hc : c ∈ f.data := by
      rw [h]
      simp
    have hnot := (hns c hc).1
    intro hcn
    rw [hcn] at hnot
    simp [notSep] at hnot

theorem lineChars_nil (fs : List String) (h : lineChars fs = []) :
    fs = [] ∨ fs = [""] := by
  cases fs with
  | nil => exact Or.inl rfl
  | cons f fs' =>
    cases fs' with
    | nil =>
      right
      have := fieldChars_nil f (by simpa [lineChars] using h)
      rw [this]
    | cons g gs =>
      exfalso
      have h2 : fieldChars f ++ ',' :: lineChars (g :: gs) = [] := by
        simpa [lineChars] using h
      simp at h2

theorem lineChars_head (fs : List String) (c : Char) (t : List Char)
    (h : lineChars fs = c :: t) : c ≠ '\n' := by
  cases fs with
  | nil => simp [lineChars] at h
  | cons f fs' =>
    cases fs' with
    | nil => exact fieldChars_head f c t (by simpa [lineChars] using h)
    | cons g gs =>
      have h2 : fieldChars f ++ ',' :: lineChars (g :: gs) = c :: t := by
        simpa [lineChars] using h
      cases hfc : fieldChars f with
      | nil =>
        rw [hfc] at h2
        simp only [List.nil_append] at h2
        obtain ⟨h1, -⟩ := List.cons.injEq _ _ _ _ ▸ h2
        rw [← h1]
        decide
      | cons d dt =>
        rw [hfc] at h2
        simp only [List.cons_append] at h2
        obtain ⟨h1, -⟩ := List.cons.injEq _ _ _ _ ▸ h2
        rw [← h1]
        exact fieldChars_head f d dt hfc

theorem parseCSVFrom_render :
    ∀ t : List (List String), (∀ r ∈ t, r ≠ [""]) →
      parseCSVFrom (tableChars t) = t := by
  intro t
  induction t with
  | nil =>
    intro _
    rw [show tableChars [] = [] from rfl, parseCSVFrom.eq_def]
  | cons r rs ih =>
    intro h
    have hrs : ∀ x ∈ rs, x ≠ [""] := fun x hx => h x (by simp [hx])
    cases r with
    | nil =>
      rw [show tableChars ([] :: rs) = '\n' :: tableChars rs from rfl]
      rw [parseCSVFrom.eq_def]
      split
      · rename_i heq
        simp at heq
      · rename_i t' heq
        obtain ⟨-, h2⟩ := List.cons.injEq _ _ _ _ ▸ heq
        rw [← h2, ih hrs]
      · rename_i c' t' hno heq
        obtain ⟨h1, -⟩ := List.cons.injEq _ _ _ _ ▸ heq
        exact (hno h1.symm).elim
    | cons f fsr =>
      cases hl : lineChars (f :: fsr) with
      | nil =>
        exfalso
        rcases lineChars_nil _ hl with h1 | h1
        · simp at h1
        · exact h (f :: fsr) (by simp) h1
      | cons c ct =>
        have hcne := lineChars_head _ _ _ hl
        rw [show tableChars ((f :: fsr) :: rs) =
          lineChars (f :: fsr) ++ '\n' :: tableChars rs from rfl]
        rw [hl]
        simp only [List.cons_append]
        rw [parseCSVFrom.eq_def]
        split
        · rename_i heq
          simp at heq
        · rename_i t' heq
          obtain ⟨h1, -⟩ := List.cons.injEq _ _ _ _ ▸ heq
          exact absurd h1 hcne
        · rename_i c' t' hno heq
          obtain ⟨rfl, rfl⟩ := List.cons.injEq _ _ _ _ ▸ heq
          have hpl : parseLineFrom (c :: (ct ++ '\n' :: tableChars rs)) =
              (f :: fsr, tableChars rs) := by
            have h3 : c :: (ct ++ '\n' :: tableChars rs) =
                lineChars (f :: fsr) ++ '\n' :: tableChars rs := by
              rw [hl]
              simp
            rw [h3]
            exact parseLineFrom_render (f :: fsr) (tableChars rs) (by simp)
          rw [hpl]
          show (f :: fsr) :: parseCSVFrom (tableChars rs) = (f :: fsr) :: rs
          rw [ih hrs]

theorem two_le_length_of_two_mem {α : Type} {a b : α} {l : List α}
    (ha : a ∈ l) (hb : b ∈ l) (hab : a ≠ b) : 2 ≤ l.length := by
  cases l with
  | nil => simp at ha
  | cons x t =>
    cases t with
    | nil =>
      simp at ha hb
      rw [ha, hb] at hab
      exact absurd rfl hab
    | cons y u =>
      simp

/-- Claim C7: every format string other than `excel` — `csv` and any
unrecognized value alike — takes the CSV branch: the stream is the CSV
serialization of the dataframe (header row of the column names, then the
rows, no index column) prefixed with a byte-order mark. -/
theorem claim_C7 (df : DataFrame) (formato : String) (hf : formato ≠ "excel") :
    generar_reporte_memoria df formato = Reporte.bytes ("\uFEFF" ++ to_csv df) ∧
    generar_reporte_memoria df formato = generar_reporte_memoria df "csv" ∧
    stripBOM ("\uFEFF" ++ to_csv df) = to_csv df ∧
    to_csv df = String.mk (lineChars df.cols ++ '\n' ::
      tableChars (df.rows.map (fun ρ => ρ.map (fun kv => cellStr kv.2)))) := by
  refine ⟨?_, ?_, rfl, rfl⟩
  · simp [generar_reporte_memoria, hf]
  · simp [generar_reporte_memoria, hf]

/-- Witness for C7 at the unrecognized format string `json`. -/
theorem claim_C7_witness :
    generar_reporte_memoria ⟨["a"], [[("a", some (Val.vstr "x"))]]⟩ "json" =
      Reporte.bytes ("\uFEFF" ++ to_csv ⟨["a"], [[("a", some (Val.vstr "x"))]]⟩) ∧
    generar_reporte_memoria ⟨["a"], [[("a", some (Val.vstr "x"))]]⟩ "json" =
      generar_reporte_memoria ⟨["a"], [[("a", some (Val.vstr "x"))]]⟩ "csv" ∧
    stripBOM ("\uFEFF" ++ to_csv ⟨["a"], [[("a", some (Val.vstr "x"))]]⟩) =
      to_csv ⟨["a"], [[("a", some (Val.vstr "x"))]]⟩ ∧
    to_csv ⟨["a"], [[("a", some (Val.vstr "x"))]]⟩ =
      String.mk (lineChars ["a"] ++ '\n' ::
        tableChars ([[("a", some (Val.vstr "x"))]].map
          (fun ρ => ρ.map (fun kv => cellStr kv.2)))) :=
  claim_C7 ⟨["a"], [[("a", some (Val.vstr "x"))]]⟩ "json" (by decide)

/-- Claim C8: exporting any parse result to CSV and re-parsing the stream
as a delimited table (after the byte-order mark) recovers exactly the
header of final column names and every cell's text. -/
theorem claim_C8 (content : String) (evt : Option (List (String × String))) :
    parseCSV (stripBOM (bytesOf
      (generar_reporte_memoria (generar_dataframe content evt) "csv"))) =
      tableOf (generar_dataframe content evt) := by
  have h1 : bytesOf (generar_reporte_memoria (generar_dataframe content evt) "csv") =
      "\uFEFF" ++ to_csv (generar_dataframe content evt) := by
    simp [generar_reporte_memoria, bytesOf]
  rw [h1]
  rw [show stripBOM ("\uFEFF" ++ to_csv (generar_dataframe content evt)) =
    to_csv (generar_dataframe content evt) from rfl]
  rw [show parseCSV (to_csv (generar_dataframe content evt)) =
    parseCSVFrom (tableChars (tableOf (generar_dataframe content evt))) from rfl]
  apply parseCSVFrom_render
  intro r hr
  rw [generar_dataframe_eq] at hr
  simp only [tableOf] at hr
  rcases List.mem_cons.mp hr with rfl | hrow
  · intro hbad
    have hmem : "" ∈ finalCols content := by
      rw [hbad]
      simp
    obtain ⟨c, hc, hc2⟩ := List.mem_map.mp hmem
    have hc5 : c ∈ ["col0", "fecha_legible", "col2", "col4", "col6"] :=
      (List.mem_filter.mp hc).1
    simp only [List.mem_cons, List.not_mem_nil, or_false] at hc5
    rcases hc5 with rfl | rfl | rfl | rfl | rfl <;> simp [renombrar] at hc2
  · obtain ⟨ρ, hρ, rfl⟩ := List.mem_map.mp hrow
    obtain ⟨linea, hlin, rfl⟩ := List.mem_map.mp hρ
    intro hbad
    have hlen : (finalColsSrc content).length = 1 := by
      have := congrArg List.length hbad
      simpa [finalRow] using this
    have h0 : "col0" ∈ finalColsSrc content := by
      rw [finalColsSrc]
      exact List.mem_filter.mpr ⟨by simp, by simp [col0_mem_allCols content linea hlin]⟩
    have hfm : "fecha_legible" ∈ finalColsSrc content := by
      rw [finalColsSrc]
      exact List.mem_filter.mpr ⟨by simp, by simp [fecha_mem_allCols content linea hlin]⟩
    have h2 := two_le_length_of_two_mem h0 hfm (by decide)
    omega

end App
